import Mathlib

/-!
Verification development for the RSA_Factorization repository
(`John_D_Cook.py` and `RSA_Multi_Method.py`).

The two Python files are shallowly embedded below.  External collaborators
(the general integer factorizer, the finite-field polynomial factorizer,
finite-field construction, cyclotomic evaluation) are modelled as oracle
parameters, following the spec's architecture in which they are consumed
through narrow interfaces; everything the repository itself computes is
translated directly from the source.
-/

/-! ### Primality oracle

`sympy.isprime` / `sage.is_prime` are modelled by trial division.  This is an
executable, exact primality test (proved equivalent to `Nat.Prime` below), so
it is a faithful model of the authoritative primality oracle of the spec. -/

def is_prime (n : ℕ) : Bool :=
  decide (2 ≤ n) && (List.range' 2 (n - 2)).all (fun d => n % d != 0)

/-- `isprime` applied to a Python `int` that may be negative or small:
`sympy.isprime` returns `False` on every integer `< 2`. -/
def is_primeZ (z : ℤ) : Bool :=
  decide (0 < z) && is_prime z.toNat

/-! ### `John_D_Cook.py`: coefficient decoding

Source (lines 54-57):
```
coeffs = factor_poly.all_coeffs()  # Highest degree first
factor_value = 0
for i, c in enumerate(reversed(coeffs)):
    factor_value += int(c) * (p ** i)
```
-/

def decode_coeffs (coeffs : List ℤ) (p : ℕ) : ℤ :=
  (coeffs.reverse.enum).foldl (fun acc ic => acc + ic.2 * (p : ℤ) ^ ic.1) 0

/-- Value of a low-degree-first coefficient list as a base-`p` integer
(Horner form); used to reason about `decode_coeffs`. -/
def valLow (p : ℕ) : List ℤ → ℤ
  | [] => 0
  | c :: l => c + (p : ℤ) * valLow p l

/-! ### `John_D_Cook.py`: the finite-field probe

`laplacian_eigenfunction_approach` (lines 8-79).  The sympy finite-field
polynomial factorizer is an external collaborator; it is modelled by the
oracle `polyFactor p m`, returning the `factor_list()[1]` of `x^m - 1` over
`GF(p)` as a list of (coefficients highest-degree-first, multiplicity)
pairs, or `none` when the call raises (caught by the per-`m` handler).
`gfOk p` models whether the construction `GF(p)` succeeds (caught by the
outer handler).  `verbose` output is modelled as a log of events so that
the independence of the returned factors from `verbose` is expressible. -/

structure ProbeOracles where
  gfOk : ℕ → Bool
  polyFactor : ℕ → ℕ → Option (List (List ℤ × ℕ))

inductive ProbeEvent where
  | fieldTooLarge (q : ℕ)
  | extensionSkip (k : ℕ)
  | fieldError (q : ℕ)
  | overGF (q m : ℕ)
  | polyError (m : ℕ)
  | foundFactor (v : ℤ)
deriving DecidableEq

def vlog (verbose : Bool) (es : List ProbeEvent) : List ProbeEvent :=
  if verbose then es else []

/-- Lines 51-67: processing of one `(factor_poly, multiplicity)` tuple. -/
def probe_factor_step (p n : ℕ) (verbose : Bool) (st : List ℤ × List ProbeEvent)
    (cm : List ℤ × ℕ) : List ℤ × List ProbeEvent :=
  let v := decode_coeffs cm.1 p
  if v ≠ 0 ∧ (n : ℤ) % v = 0 then
    if v ∈ st.1 then st
    else (st.1 ++ [v], st.2 ++ vlog verbose [.foundFactor v])
  else st

/-- Lines 44-71: the body of the `m` loop (without the `break` test). -/
def probe_step (O : ProbeOracles) (p q n : ℕ) (verbose : Bool)
    (st : List ℤ × List ProbeEvent) (m : ℕ) : List ℤ × List ProbeEvent :=
  let st := (st.1, st.2 ++ vlog verbose [.overGF q m])
  match O.polyFactor p m with
  | none => (st.1, st.2 ++ vlog verbose [.polyError m])
  | some fl => fl.foldl (probe_factor_step p n verbose) st

/-- The list of exponents `m` actually examined by the `m` loop: iteration
stops after the first `m` with `m == p or q % m == 1` (lines 73-74), except
that when the polynomial factorization raises, the `continue` on line 71
skips the `break` test for that `m`. -/
def probe_ms (O : ProbeOracles) (p q : ℕ) : List ℕ → List ℕ
  | [] => []
  | m :: rest =>
    match O.polyFactor p m with
    | none => m :: probe_ms O p q rest
    | some _ => if m = p ∨ q % m = 1 then [m] else m :: probe_ms O p q rest

/-- `laplacian_eigenfunction_approach` (lines 8-79): returns the factor list
(in set-insertion order) together with the verbose log. -/
def laplacian_eigenfunction_approach (O : ProbeOracles) (args : ℕ × ℕ × ℕ × Bool) :
    List ℤ × List ProbeEvent :=
  let (p, k, n, verbose) := args
  let q := p ^ k
  if 10 ^ 12 < q then ([], vlog verbose [.fieldTooLarge q])
  else if k = 1 then
    if O.gfOk p then
      (probe_ms O p q (List.range' 3 (p - 2))).foldl (probe_step O p q n verbose) ([], [])
    else ([], vlog verbose [.fieldError q])
  else ([], vlog verbose [.extensionSkip k])

/-! ### `John_D_Cook.py`: the top-level pipeline -/

/-- Lines 101-107: the initial factor set.  `sympy.factorint` is modelled by
the canonical prime factorization (`Nat.primeFactorsList`); adding each prime
`e` times to a set keeps one copy, in ascending first-occurrence order. -/
def initial_factors (n : ℕ) : List ℤ :=
  if is_prime n then [(n : ℤ)]
  else (n.primeFactorsList.dedup).map (Nat.cast : ℕ → ℤ)

/-- `factors.update(result)` on the set modelled as an insertion-ordered
duplicate-free list. -/
def set_update (acc : List ℤ) (r : List ℤ) : List ℤ :=
  r.foldl (fun a v => if v ∈ a then a else a ++ [v]) acc

/-- Line 116: `prime_factors = [p for p in factors if isprime(p) and p % 6 in [1, 5]]`. -/
def prime_factor_filter (n : ℕ) : List ℤ :=
  (initial_factors n).filter fun p => is_primeZ p && (p % 6 == 1 || p % 6 == 5)

/-- Lines 119-122: the `(p, k, n, False)` task list handed to the pool. -/
def probe_args (n : ℕ) (max_power_list : List ℕ) : List (ℕ × ℕ × ℕ × Bool) :=
  (prime_factor_filter n).flatMap fun p => max_power_list.map fun k => (p.toNat, k, n, false)

/-- `find_factors_using_finite_fields` (lines 81-140).  The worker pool maps
`laplacian_eigenfunction_approach` over the task list; only the factor
component of each task's result is merged. -/
def find_factors_using_finite_fields (O : ProbeOracles) (n : ℕ)
    (max_power_list : List ℕ) : List ℤ :=
  List.insertionSort (· ≤ ·)
    (((probe_args n max_power_list).map
        fun a => (laplacian_eigenfunction_approach O a).1).foldl
      set_update (initial_factors n))

/-- `verify_factorization` (lines 142-157). -/
def verify_factorization (number : ℤ) (factors : List ℤ) : Bool :=
  (factors.foldl (· * ·) 1) == number

/-! ### `RSA_Multi_Method.py`: the special-prime sieve

`generate_special_primes` (lines 5-71), translated line by line.  Python
`range(a, b[, s])` and floor `//` are rendered by `pyRange` and natural
division; all loop indices in the source are `≥ 1`, and for the degenerate
inputs where Python's `//` goes negative every affected loop is empty in
both readings, so `ℕ` subtraction is exact here. -/

/-- `int(sqrt(max_value))`: the integer square root, written as an
executable fold so that it reduces in the kernel. -/
def pySqrt (n : ℕ) : ℕ :=
  (List.range (n + 1)).foldl (fun a i => if i * i ≤ n then i else a) 0

/-- `range(start, stop, step)` for `step ≥ 1`. -/
def pyRange (start stop step : ℕ) : List ℕ :=
  List.range' start ((stop - start + step - 1) / step) step

/-- `for j in range(...): sieve[j] = False`. -/
def mark_multiples (s : List Bool) (idxs : List ℕ) : List Bool :=
  idxs.foldl (fun a j => a.set j false) s

/-- The body of the sieving loop (lines 32-57) for one index `i`. -/
def sieve_step (max_idx_1 max_idx_5 : ℕ) (st : List Bool × List Bool) (i : ℕ) :
    List Bool × List Bool :=
  let s1 := st.1
  let s5 := st.2
  let st1 :=
    if s1.getD i false then
      let p := 6 * i + 1
      let s1 := mark_multiples s1 (pyRange (i + p) (max_idx_1 + 1) p)
      let start := (p * 5 - 5) / 6
      let s5 := if 0 < start then mark_multiples s5 (pyRange start (max_idx_5 + 1) p) else s5
      (s1, s5)
    else (s1, s5)
  if i ≤ max_idx_5 && st1.2.getD i false then
    let p := 6 * i + 5
    let start1 := (p * 1 - 1) / 6
    let s1 := if 0 < start1 then mark_multiples st1.1 (pyRange start1 (max_idx_1 + 1) p) else st1.1
    let start5 := (p * 5 - 5) / 6
    let s5 := if 0 < start5 then mark_multiples st1.2 (pyRange start5 (max_idx_5 + 1) p) else st1.2
    (s1, s5)
  else st1

/-- `generate_special_primes` (lines 5-71). -/
def generate_special_primes (max_value : ℕ) : List ℕ :=
  let max_idx_1 := (max_value - 1) / 6
  let max_idx_5 := (max_value - 5) / 6
  let sieve_1 := List.replicate (max_idx_1 + 1) true
  let sieve_5 := List.replicate (max_idx_5 + 1) true
  let st := (pyRange 1 (pySqrt max_value / 6 + 1) 1).foldl
    (sieve_step max_idx_1 max_idx_5) (sieve_1, sieve_5)
  let part1 := ((pyRange 1 (max_idx_1 + 1) 1).filter (fun i => st.1.getD i false)).map
    (fun i => 6 * i + 1)
  let part5 := ((pyRange 1 (max_idx_5 + 1) 1).filter (fun i => st.2.getD i false)).map
    (fun i => 6 * i + 5)
  List.insertionSort (· ≤ ·) (3 :: (part1 ++ part5))

/-! ### `RSA_Multi_Method.py`: the staged orchestrator

`factor_large_semiprime` (lines 73-231).  The Sage general factorizer is an
external collaborator that either raises (stage 1 catches this and advances;
the unguarded sub-factor calls let it propagate, modelled by a `none`
overall result) or returns the canonical prime factorization, modelled by
`trueFactor`.  Whether it answers at all on a given input is the oracle
`factorAvail`.  `GF(q)` construction and the cyclotomic evaluation of stage 4
are likewise oracles (`gfAvail`, `cycHit`). -/

/-- The mathematical content of a successful `factor(m)` call: the list of
`(prime, exponent)` pairs of `m`, ascending. -/
def trueFactor (m : ℕ) : List (ℕ × ℕ) :=
  (m.primeFactorsList.dedup).map fun p => (p, m.primeFactorsList.count p)

structure ExtOracles where
  factorAvail : ℕ → Bool
  gfAvail : ℕ → Bool
  cycHit : ℕ → ℕ → ℕ → ℕ → Bool

/-- Which stage produced the returned factor list. -/
inductive Stage where
  | direct
  | small
  | trial
  | cyclo
  | exhausted
deriving DecidableEq

/-- Line 109. -/
def small_primes : List ℕ :=
  [3, 5, 7, 11, 13, 17, 19, 23, 29, 31, 37, 41, 43, 47, 53, 59, 61, 67]

/-- The shared "found a divisor `p`" branching of stages 2, 3 and 4
(lines 112-129, 154-172, 203-220): if the cofactor is prime return the two
factors, otherwise factor the cofactor with the external factorizer (an
unguarded call: `none` models the exception propagating). -/
def branchOn (O : ExtOracles) (n p : ℕ) : Option (List ℕ) :=
  let other := n / p
  if is_prime other then some [p, other]
  else if O.factorAvail other then
    some (List.insertionSort (· ≤ ·) (p :: (trueFactor other).map Prod.fst))
  else none

/-- Stage 3/4 prime pool: `generate_special_primes(min(int(n.sqrt()) + 1, max_prime))`. -/
def special_pool (n max_prime : ℕ) : List ℕ :=
  generate_special_primes (min (pySqrt n + 1) max_prime)

/-- `special_primes[::10]` (line 185). -/
def stride10 (l : List ℕ) : List ℕ :=
  (l.enum.filter fun ic => ic.1 % 10 == 0).map (·.2)

/-- Lines 198-202: the `m` window `3..6`; a hit needs the cyclotomic value
to vanish and `p` to divide `n`. -/
def anyCycHit (O : ExtOracles) (p k n : ℕ) : Bool :=
  (List.range' 3 4).any fun m => O.cycHit p k m n && (n % p == 0)

/-- Lines 188-224: the `k` loop for one selected prime `p`; `break` on an
oversized field or a failed `GF(q)` construction abandons this `p`. -/
def stage4scan (O : ExtOracles) (n p : ℕ) : List ℕ → Bool
  | [] => false
  | k :: ks =>
    let q := p ^ k
    if 10 ^ 6 < q then false
    else if O.gfAvail q then
      if anyCycHit O p k n then true else stage4scan O n p ks
    else false

/-- `factor_large_semiprime` (lines 73-231): the staged orchestrator. -/
def factor_large_semiprime (O : ExtOracles) (n : ℕ) (max_prime : ℕ)
    (max_attempts : ℕ) : Option (List ℕ × Stage) :=
  if O.factorAvail n then some ((trueFactor n).map Prod.fst, .direct)
  else
    match small_primes.find? (fun p => n % p == 0) with
    | some p => (branchOn O n p).map (fun l => (l, .small))
    | none =>
      match (special_pool n max_prime).find? (fun p => n % p == 0) with
      | some p => (branchOn O n p).map (fun l => (l, .trial))
      | none =>
        match (stride10 (special_pool n max_prime)).find?
            (fun p => stage4scan O n p (List.range' 1 max_attempts)) with
        | some p => (branchOn O n p).map (fun l => (l, .cyclo))
        | none => some ([], .exhausted)

/-! ### Decoding lemmas -/

theorem foldl_enumFrom_decode (p : ℕ) :
    ∀ (l : List ℤ) (s : ℕ) (a : ℤ),
      (List.enumFrom s l).foldl (fun acc ic => acc + ic.2 * (p : ℤ) ^ ic.1) a
        = a + (p : ℤ) ^ s * valLow p l := by
  intro l
  induction l with
  | nil => intro s a; simp [valLow]
  | cons c t ih =>
    intro s a
    simp only [List.enumFrom, List.foldl_cons, valLow, ih t.length]
    rw [ih]
    ring

theorem decode_coeffs_eq_valLow (c : List ℤ) (p : ℕ) :
    decode_coeffs c p = valLow p c.reverse := by
  have h := foldl_enumFrom_decode p c.reverse 0 0
  simpa [decode_coeffs, List.enum] using h

theorem valLow_eq_sum (p : ℕ) :
    ∀ l : List ℤ, valLow p l = ∑ i ∈ Finset.range l.length, l.getD i 0 * (p : ℤ) ^ i := by
  intro l
  induction l with
  | nil => simp [valLow]
  | cons c t ih =>
    rw [valLow, ih, List.length_cons, Finset.sum_range_succ'
      (f := fun i => (c :: t).getD i 0 * (p : ℤ) ^ i), Finset.mul_sum]
    simp only [List.getD_cons_succ, List.getD_cons_zero, pow_zero, mul_one]
    rw [add_comm]
    congr 1
    refine Finset.sum_congr rfl fun i _ => ?_
    ring

/-- C8: the probe decodes the coefficients of each irreducible factor
polynomial as base-`p` digits, low-degree first: applied to the
highest-degree-first list that sympy's `all_coeffs()` yields for the
low-degree-first coefficients `[c0, ..., cd]`, the decoded value is
`∑ ci · p^i`; in particular the polynomial with low-first coefficients
`[1, 2]` decodes in base 5 to `1 + 2·5 = 11`. -/
theorem C8_decode_low_first :
    (∀ (c : List ℤ) (p : ℕ),
        decode_coeffs c.reverse p = ∑ i ∈ Finset.range c.length, c.getD i 0 * (p : ℤ) ^ i)
      ∧ decode_coeffs [2, 1] 5 = 11 := by
  constructor
  · intro c p
    rw [decode_coeffs_eq_valLow, List.reverse_reverse, valLow_eq_sum]
  · rfl

/-! ### Probe guardrails (C5) and verbose independence (C10) -/

/-- C5: for every extension degree `k ≠ 1` the probe returns an empty factor
list (either the field-size guard or the extension-field guard short-circuits;
no exception escapes). -/
theorem C5_extension_fields_empty (O : ProbeOracles) (p k n : ℕ) (verbose : Bool)
    (hk : k ≠ 1) :
    (laplacian_eigenfunction_approach O (p, k, n, verbose)).1 = [] := by
  simp only [laplacian_eigenfunction_approach, hk]
  split_ifs <;> first | rfl | exact (by assumption : False).elim

theorem probe_factor_step_fst (p n : ℕ) (v v' : Bool)
    (st st' : List ℤ × List ProbeEvent) (cm : List ℤ × ℕ) (h : st.1 = st'.1) :
    (probe_factor_step p n v st cm).1 = (probe_factor_step p n v' st' cm).1 := by
  simp only [probe_factor_step, h]
  split_ifs <;> simp [h]

theorem foldl_probe_factor_step_fst (p n : ℕ) (v v' : Bool) :
    ∀ (fl : List (List ℤ × ℕ)) (st st' : List ℤ × List ProbeEvent), st.1 = st'.1 →
      (fl.foldl (probe_factor_step p n v) st).1 = (fl.foldl (probe_factor_step p n v') st').1 := by
  intro fl
  induction fl with
  | nil => intro st st' h; exact h
  | cons cm t ih =>
    intro st st' h
    exact ih _ _ (probe_factor_step_fst p n v v' st st' cm h)

theorem probe_step_fst (O : ProbeOracles) (p q n : ℕ) (v v' : Bool)
    (st st' : List ℤ × List ProbeEvent) (m : ℕ) (h : st.1 = st'.1) :
    (probe_step O p q n v st m).1 = (probe_step O p q n v' st' m).1 := by
  simp only [probe_step]
  cases O.polyFactor p m with
  | none => exact h
  | some fl => exact foldl_probe_factor_step_fst p n v v' fl _ _ h

theorem foldl_probe_step_fst (O : ProbeOracles) (p q n : ℕ) (v v' : Bool) :
    ∀ (ms : List ℕ) (st st' : List ℤ × List ProbeEvent), st.1 = st'.1 →
      (ms.foldl (probe_step O p q n v) st).1 = (ms.foldl (probe_step O p q n v') st').1 := by
  intro ms
  induction ms with
  | nil => intro st st' h; exact h
  | cons m t ih =>
    intro st st' h
    exact ih _ _ (probe_step_fst O p q n v v' st st' m h)

/-- C10: the returned factor list of the probe does not depend on the
`verbose` flag; only the log of printed events does. -/
theorem C10_verbose_independent (O : ProbeOracles) (p k n : ℕ) :
    (laplacian_eigenfunction_approach O (p, k, n, true)).1
      = (laplacian_eigenfunction_approach O (p, k, n, false)).1 := by
  simp only [laplacian_eigenfunction_approach]
  split_ifs
  · rfl
  · exact foldl_probe_step_fst O p (p ^ k) n true false _ ([], []) ([], []) rfl
  · rfl
  · rfl

/-! ### Correctness of the primality-oracle model -/

theorem is_prime_iff (n : ℕ) : is_prime n = true ↔ n.Prime := by
  simp only [is_prime, Bool.and_eq_true, decide_eq_true_eq, List.all_eq_true,
    bne_iff_ne, ne_eq, List.mem_range'_1]
  constructor
  · rintro ⟨h2, hall⟩
    rw [Nat.prime_def_lt]
    refine ⟨h2, fun m hm hdvd => ?_⟩
    rcases Nat.lt_or_ge m 2 with hm2 | hm2
    · interval_cases m
      · exact absurd (Nat.eq_zero_of_zero_dvd hdvd) (by omega)
      · rfl
    · exfalso
      exact hall m ⟨hm2, by omega⟩ (Nat.dvd_iff_mod_eq_zero.mp hdvd)
  · intro hp
    refine ⟨hp.two_le, fun m hm hmod => ?_⟩
    have hdvd : m ∣ n := Nat.dvd_iff_mod_eq_zero.mpr hmod
    rcases (Nat.Prime.eq_one_or_self_of_dvd hp m hdvd) with h | h <;> omega

/-! ### C7: the probe's exponent loop -/

theorem probe_ms_range' (O : ProbeOracles) (p q : ℕ)
    (htot : ∀ m, (O.polyFactor p m).isSome) :
    ∀ (len a m₀ : ℕ), (m₀ = p ∨ q % m₀ = 1) →
      (∀ j, a ≤ j → j < m₀ → ¬(j = p ∨ q % j = 1)) →
      a ≤ m₀ → m₀ < a + len →
      probe_ms O p q (List.range' a len) = List.range' a (m₀ + 1 - a) := by
  intro len
  induction len with
  | zero => intro a m₀ _ _ h1 h2; omega
  | succ l ih =>
    intro a m₀ hstop hmin ham hlt
    rw [List.range'_succ, probe_ms]
    have hsome := htot a
    cases hOa : O.polyFactor p a with
    | none => rw [hOa] at hsome; simp at hsome
    | some fl =>
      simp only
      rcases Nat.eq_or_lt_of_le ham with heq | hlt2
      · subst heq
        rw [if_pos hstop]
        have : a + 1 - a = 1 := by omega
        rw [this, List.range'_one]
      · rw [if_neg (hmin a le_rfl hlt2)]
        have hranges : m₀ + 1 - a = (m₀ + 1 - (a + 1)) + 1 := by omega
        rw [hranges, List.range'_succ]
        congr 1
        exact ih (a + 1) m₀ hstop (fun j hj => hmin j (by omega)) (by omega) (by omega)

/-- C7: for a prime `p ≥ 3` probed with `k = 1` (so `q = p`), and with the
polynomial factorizer succeeding on every `m` (so that no `continue` skips
the `break` test), the `m` loop examines exactly `m = 3, 4, ..., m₀` where
`m₀` is the first exponent with `m₀ = p` or `q % m₀ = 1`; in particular it
terminates and never examines any `m > p`. -/
theorem C7_m_loop_terminates (O : ProbeOracles) (p : ℕ) (_hp : p.Prime) (h3 : 3 ≤ p)
    (htot : ∀ m, (O.polyFactor p m).isSome) :
    ∃ m₀, 3 ≤ m₀ ∧ m₀ ≤ p ∧ (m₀ = p ∨ p % m₀ = 1) ∧
      probe_ms O p p (List.range' 3 (p - 2)) = List.range' 3 (m₀ - 2) ∧
      ∀ m, 3 ≤ m → m < m₀ → ¬(m = p ∨ p % m = 1) := by
  classical
  have hex : ∃ m, (m = p ∨ p % m = 1) ∧ 3 ≤ m := ⟨p, Or.inl rfl, h3⟩
  refine ⟨Nat.find hex, (Nat.find_spec hex).2, Nat.find_min' hex ⟨Or.inl rfl, h3⟩,
    (Nat.find_spec hex).1, ?_, fun m hm3 hmlt hstop => Nat.find_min hex hmlt ⟨hstop, hm3⟩⟩
  have hle : Nat.find hex ≤ p := Nat.find_min' hex ⟨Or.inl rfl, h3⟩
  have h := probe_ms_range' O p p htot (p - 2) 3 (Nat.find hex) (Nat.find_spec hex).1
    (fun j hj3 hjlt hstop => Nat.find_min hex hjlt ⟨hstop, hj3⟩)
    (Nat.find_spec hex).2 (by omega)
  rwa [show Nat.find hex + 1 - 3 = Nat.find hex - 2 from by omega] at h

/-- A probe-oracle instance whose polynomial factorizer always succeeds
(with an empty factor list); used to instantiate hypotheses concretely. -/
def probeTrivial : ProbeOracles := ⟨fun _ => true, fun _ _ => some []⟩

/-- Witness for C7 at the concrete prime `p = 5` with a total polynomial
factorizer: the hypotheses are satisfiable and the conclusion holds. -/
theorem C7_m_loop_terminates_witness :
    ∃ m₀, 3 ≤ m₀ ∧ m₀ ≤ 5 ∧ (m₀ = 5 ∨ 5 % m₀ = 1) ∧
      probe_ms probeTrivial 5 5 (List.range' 3 (5 - 2)) = List.range' 3 (m₀ - 2) ∧
      ∀ m, 3 ≤ m → m < m₀ → ¬(m = 5 ∨ 5 % m = 1) :=
  C7_m_loop_terminates probeTrivial 5 (by norm_num) (by norm_num) (fun m => rfl)

/-- Witness for C5 at `(p, k, n) = (3, 2, 10)`: `k = 2 ≠ 1` and the probe
returns no factors. -/
theorem C5_extension_fields_empty_witness :
    (2 ≠ 1) ∧ (laplacian_eigenfunction_approach probeTrivial (3, 2, 10, false)).1 = [] :=
  ⟨by norm_num, C5_extension_fields_empty probeTrivial 3 2 10 false (by norm_num)⟩

/-! ### C2 and C3: the special-prime sieve bugs -/

/-- C2 fails on the code: `generate_special_primes(25)` returns a list that
contains the composite `25` (the collection loops harvest every surviving
index, and nothing below `√25` gets sieved because the outer loop bound
`int(sqrt(25)) // 6` is `0`); the docstring promises primes only.  It also
omits the prime `5`. -/
theorem C2_sieve_output_at_25 :
    generate_special_primes 25 = [3, 7, 11, 13, 17, 19, 23, 25]
      ∧ 25 ∈ generate_special_primes 25 ∧ ¬ Nat.Prime 25
      ∧ 5 ∉ generate_special_primes 25 ∧ Nat.Prime 5 := by
  refine ⟨by decide, by decide, by norm_num, by decide, by norm_num⟩

/-- C3 fails on the code: `generate_special_primes(20)` omits the prime `5`
(the harvesting loop `for i in range(1, max_idx_5 + 1)` starts at index 1,
skipping `6·0 + 5 = 5`), so the output is `[3, 7, 11, 13, 17, 19]`, not the
`[3, 5, 7, 11, 13, 17, 19]` the spec's example demands. -/
theorem C3_sieve_output_at_20 :
    generate_special_primes 20 = [3, 7, 11, 13, 17, 19]
      ∧ 5 ∉ generate_special_primes 20 ∧ Nat.Prime 5 ∧ 5 ≤ 20 := by
  refine ⟨by decide, by decide, by norm_num, by norm_num⟩

/-! ### C9: verification of the empty factor list -/

/-- The all-failing external-oracle instance: the general factorizer never
answers, `GF(q)` construction never succeeds, no cyclotomic hit. -/
def oracleNone : ExtOracles := ⟨fun _ => false, fun _ => false, fun _ _ _ _ => false⟩

/-- C9: `verify_factorization` on an empty factor list returns `true` exactly
when the number is `1` (the empty product); hence the orchestrator's
terminal-failure empty result never verifies against a target `> 1`. -/
theorem C9_verify_empty (z : ℤ) (n : ℕ) (O : ExtOracles) (mp ma : ℕ) :
    (verify_factorization z [] = true ↔ z = 1)
      ∧ (1 < n → factor_large_semiprime O n mp ma = some ([], .exhausted) →
          verify_factorization (n : ℤ) [] = false) := by
  constructor
  · simp only [verify_factorization, List.foldl_nil, beq_iff_eq]
    exact eq_comm
  · intro hn _
    simp only [verify_factorization, List.foldl_nil]
    have : (1 : ℤ) ≠ (n : ℤ) := by
      intro h
      have : ((1 : ℕ) : ℤ) = (n : ℤ) := by exact_mod_cast h
      have := Nat.cast_injective this
      omega
    simpa using this

/-- Witness for C9: at `z = 5` and the target `n = 4` (on which the
orchestrator with all-failing oracles exhausts every stage and returns the
empty list), verification yields `false`. -/
theorem C9_verify_empty_witness :
    (verify_factorization 5 [] = true ↔ (5 : ℤ) = 1)
      ∧ verify_factorization ((4 : ℕ) : ℤ) [] = false :=
  ⟨(C9_verify_empty 5 4 oracleNone 10000 3).1,
    (C9_verify_empty 5 4 oracleNone 10000 3).2 (by norm_num) (by decide)⟩

/-! ### Orchestrator helper lemmas -/

theorem small_primes_pos : ∀ p ∈ small_primes, 0 < p := by decide

theorem mem_generate_special_primes_ge (N : ℕ) :
    ∀ x ∈ generate_special_primes N, 3 ≤ x := by
  intro x hx
  unfold generate_special_primes at hx
  rw [(List.perm_insertionSort _ _).mem_iff] at hx
  simp only [List.mem_cons, List.mem_append, List.mem_map, List.mem_filter] at hx
  rcases hx with h3 | ⟨i, ⟨hi, _⟩, rfl⟩ | ⟨i, ⟨hi, _⟩, rfl⟩
  · omega
  · have := (List.mem_range'_1.mp (by simpa [pyRange] using hi)).1
    omega
  · have := (List.mem_range'_1.mp (by simpa [pyRange] using hi)).1
    omega

theorem mem_stride10 (l : List ℕ) (x : ℕ) (h : x ∈ stride10 l) : x ∈ l := by
  simp only [stride10, List.mem_map, List.mem_filter] at h
  obtain ⟨⟨i, v⟩, ⟨hmem, _⟩, rfl⟩ := h
  have := List.mem_enum_iff_getElem?.mp hmem
  exact List.getElem?_mem this

theorem anyCycHit_mod (O : ExtOracles) (p k n : ℕ) (h : anyCycHit O p k n = true) :
    n % p = 0 := by
  simp only [anyCycHit, List.any_eq_true, Bool.and_eq_true, beq_iff_eq] at h
  obtain ⟨m, _, _, hmod⟩ := h
  exact hmod

theorem stage4scan_mod (O : ExtOracles) (n p : ℕ) :
    ∀ ks, stage4scan O n p ks = true → n % p = 0 := by
  intro ks
  induction ks with
  | nil => intro h; exact absurd h (by simp [stage4scan])
  | cons k t ih =>
    intro h
    rw [stage4scan] at h
    split_ifs at h <;>
      first
        | exact anyCycHit_mod O p k n (by assumption)
        | exact ih h

theorem trueFactor_map_fst (m : ℕ) :
    (trueFactor m).map Prod.fst = m.primeFactorsList.dedup := by
  unfold trueFactor
  rw [List.map_map,
    show (Prod.fst ∘ fun p => (p, m.primeFactorsList.count p)) = id from rfl, List.map_id]

theorem dedup_primeFactorsList_prod (m : ℕ) (hm : m ≠ 0) (hsq : Squarefree m) :
    m.primeFactorsList.dedup.prod = m := by
  rw [List.dedup_eq_self.mpr ((Nat.squarefree_iff_nodup_primeFactorsList hm).mp hsq)]
  exact Nat.prod_primeFactorsList hm

theorem branchOn_prod (O : ExtOracles) (n p : ℕ) (l : List ℕ) (hsq : Squarefree n)
    (hp : 0 < p) (hdvd : p ∣ n) (h : branchOn O n p = some l) : l.prod = n := by
  have hn0 : n ≠ 0 := hsq.ne_zero
  have hple : p ≤ n := Nat.le_of_dvd (by omega) hdvd
  have hq0 : n / p ≠ 0 := by
    intro h0
    rw [Nat.div_eq_zero_iff (by omega)] at h0
    omega
  simp only [branchOn] at h
  split_ifs at h with h1 h2
  · injection h with h
    subst h
    simp only [List.prod_cons, List.prod_nil, mul_one]
    exact Nat.mul_div_cancel' hdvd
  · injection h with h
    subst h
    rw [(List.perm_insertionSort _ _).prod_eq, List.prod_cons, trueFactor_map_fst,
      dedup_primeFactorsList_prod (n / p) hq0
        (hsq.squarefree_of_dvd (Nat.div_dvd_of_dvd hdvd))]
    exact Nat.mul_div_cancel' hdvd

theorem foldl_mul_cast (l : List ℕ) : ∀ a : ℤ,
    (l.map (Nat.cast : ℕ → ℤ)).foldl (· * ·) a = a * (l.prod : ℤ) := by
  induction l with
  | nil => intro a; simp
  | cons x t ih =>
    intro a
    simp only [List.map_cons, List.foldl_cons, List.prod_cons, ih]
    push_cast
    ring

theorem verify_cast (n : ℕ) (l : List ℕ) :
    verify_factorization (n : ℤ) (l.map (Nat.cast : ℕ → ℤ)) = true ↔ l.prod = n := by
  simp only [verify_factorization, foldl_mul_cast, one_mul, beq_iff_eq]
  exact Nat.cast_inj

/-! ### C1: verification of nonempty orchestrator results -/

/-- C1 as stated is false; this is the amended form.  For a squarefree
target, every nonempty factor list the orchestrator returns multiplies back
to the target (stage 1 returns the distinct primes, stages 2-4 return a
found divisor together with the cofactor or its distinct prime factors). -/
theorem C1_amended_verification (O : ExtOracles) (n mp ma : ℕ) (l : List ℕ) (st : Stage)
    (hsq : Squarefree n)
    (h : factor_large_semiprime O n mp ma = some (l, st)) (hne : l ≠ []) :
    verify_factorization (n : ℤ) (l.map (Nat.cast : ℕ → ℤ)) = true := by
  rw [verify_cast]
  have hn0 : n ≠ 0 := hsq.ne_zero
  unfold factor_large_semiprime at h
  split_ifs at h with havail
  · injection h with h
    have hl : (trueFactor n).map Prod.fst = l := congrArg Prod.fst h
    rw [← hl, trueFactor_map_fst]
    exact dedup_primeFactorsList_prod n hn0 hsq
  · cases hfind : small_primes.find? (fun p => n % p == 0) with
    | some p =>
      rw [hfind] at h
      obtain ⟨l0, hb, heq⟩ := Option.map_eq_some'.mp h
      have hl : l0 = l := congrArg Prod.fst heq
      subst hl
      have hmod : n % p = 0 := by simpa using List.find?_some hfind
      exact branchOn_prod O n p l0 hsq
        (small_primes_pos p (List.mem_of_find?_eq_some hfind))
        (Nat.dvd_of_mod_eq_zero hmod) hb
    | none =>
      rw [hfind] at h
      cases hfind2 : (special_pool n mp).find? (fun p => n % p == 0) with
      | some p =>
        rw [hfind2] at h
        obtain ⟨l0, hb, heq⟩ := Option.map_eq_some'.mp h
        have hl : l0 = l := congrArg Prod.fst heq
        subst hl
        have hmod : n % p = 0 := by simpa using List.find?_some hfind2
        have hp3 : 3 ≤ p := mem_generate_special_primes_ge _ p
          (List.mem_of_find?_eq_some hfind2)
        exact branchOn_prod O n p l0 hsq (by omega) (Nat.dvd_of_mod_eq_zero hmod) hb
      | none =>
        rw [hfind2] at h
        cases hfind3 : (stride10 (special_pool n mp)).find?
            (fun p => stage4scan O n p (List.range' 1 ma)) with
        | some p =>
          rw [hfind3] at h
          obtain ⟨l0, hb, heq⟩ := Option.map_eq_some'.mp h
          have hl : l0 = l := congrArg Prod.fst heq
          subst hl
          have hscan : stage4scan O n p (List.range' 1 ma) = true := by
            have := List.find?_some hfind3
            simpa using this
          have hmod : n % p = 0 := stage4scan_mod O n p _ hscan
          have hp3 : 3 ≤ p := mem_generate_special_primes_ge _ p
            (mem_stride10 _ p (List.mem_of_find?_eq_some hfind3))
          exact branchOn_prod O n p l0 hsq (by omega) (Nat.dvd_of_mod_eq_zero hmod) hb
        | none =>
          rw [hfind3] at h
          injection h with h
          exact absurd (congrArg Prod.fst h).symm hne

theorem primeFactorsList_nine : Nat.primeFactorsList 9 = [3, 3] := by
  rw [show (9 : ℕ) = 7 + 2 from rfl, Nat.primeFactorsList]
  norm_num
  exact Nat.primeFactorsList_prime (by norm_num)

/-- An external-oracle instance on which the general factorizer always
answers (as the real Sage `factor` does on small inputs). -/
def oracleDirect : ExtOracles := ⟨fun _ => true, fun _ => true, fun _ _ _ _ => false⟩

/-- C1 counterexample: on the non-squarefree semiprime target `9 = 3 · 3`
the orchestrator's stage 1 succeeds and returns the nonempty list `[3]`
(the source keeps only the distinct primes, dropping multiplicities), yet
verification fails: `3 ≠ 9`. -/
theorem C1_counterexample_nine :
    factor_large_semiprime oracleDirect 9 10000 3 = some ([3], .direct)
      ∧ ([3] : List ℕ) ≠ []
      ∧ verify_factorization (9 : ℤ) (([3] : List ℕ).map (Nat.cast : ℕ → ℤ)) = false := by
  refine ⟨?_, by simp, by decide⟩
  unfold factor_large_semiprime
  rw [show oracleDirect.factorAvail 9 = true from rfl, if_pos rfl]
  rw [trueFactor_map_fst, primeFactorsList_nine]
  rfl

theorem primeFactorsList_fifteen : Nat.primeFactorsList 15 = [3, 5] := by
  rw [show (15 : ℕ) = 13 + 2 from rfl, Nat.primeFactorsList]
  norm_num
  exact Nat.primeFactorsList_prime (by norm_num)

/-- Witness for the amended C1 at the squarefree target `15` with a failing
direct factorizer: stage 2 returns `[3, 5]` and verification succeeds. -/
theorem C1_amended_verification_witness :
    Squarefree 15
      ∧ factor_large_semiprime oracleNone 15 10000 3 = some ([3, 5], .small)
      ∧ (([3, 5] : List ℕ) ≠ [])
      ∧ verify_factorization (15 : ℤ) (([3, 5] : List ℕ).map (Nat.cast : ℕ → ℤ)) = true := by
  have hsq : Squarefree 15 := by
    rw [Nat.squarefree_iff_nodup_primeFactorsList (by norm_num), primeFactorsList_fifteen]
    decide
  have h : factor_large_semiprime oracleNone 15 10000 3 = some ([3, 5], .small) := by decide
  exact ⟨hsq, h, by simp,
    C1_amended_verification oracleNone 15 10000 3 [3, 5] .small hsq h (by simp)⟩

/-! ### C4: the small-prime stage on 303 -/

/-- C4: when the stage-1 external factorizer fails on `303` (the only way
stage 2 is reachable), the orchestrator terminates at the small-prime stage:
it finds the divisor `3` in the fixed small-prime list, the cofactor `101`
is prime, and the result is `[3, 101]`, independently of `max_prime`,
`max_attempts` and the remaining oracles. -/
theorem C4_stage2_on_303 (O : ExtOracles) (mp ma : ℕ) (h : O.factorAvail 303 = false) :
    factor_large_semiprime O 303 mp ma = some ([3, 101], .small) := by
  unfold factor_large_semiprime
  rw [h]
  rfl

/-- Witness for C4 with a concretely failing stage-1 factorizer. -/
theorem C4_stage2_on_303_witness :
    oracleNone.factorAvail 303 = false
      ∧ factor_large_semiprime oracleNone 303 10000 3 = some ([3, 101], .small) :=
  ⟨rfl, C4_stage2_on_303 oracleNone 10000 3 rfl⟩

/-! ### C6: the factor-set invariants -/

/-- Well-formedness of the sympy polynomial-factorizer oracle, as the real
`Poly(x**m - 1, domain=GF(p)).factor_list()` behaves: every irreducible
factor is monic (integer leading coefficient literally `1`, highest degree
first) of degree at least 1, and sympy's `GF(p)` uses the symmetric
representation, so every integer coefficient lies in `[-(p-1)/2, (p-1)/2]`. -/
def ProbeWf (O : ProbeOracles) : Prop :=
  ∀ p m fl, O.polyFactor p m = some fl →
    ∀ cm ∈ fl, (∃ rest, cm.1 = 1 :: rest ∧ rest ≠ []) ∧
      ∀ c ∈ cm.1, 2 * |c| ≤ (p : ℤ) - 1

theorem valLow_append_one (p : ℕ) :
    ∀ l : List ℤ, valLow p (l ++ [1]) = valLow p l + (p : ℤ) ^ l.length := by
  intro l
  induction l with
  | nil => simp [valLow]
  | cons c t ih =>
    simp only [List.cons_append, valLow, List.length_cons, List.append_eq]
    rw [ih]
    ring

theorem valLow_abs_bound (p : ℕ) :
    ∀ l : List ℤ, (∀ c ∈ l, 2 * |c| ≤ (p : ℤ) - 1) →
      2 * |valLow p l| ≤ (p : ℤ) ^ l.length - 1 := by
  intro l
  induction l with
  | nil => intro _; simp [valLow]
  | cons c t ih =>
    intro hb
    have hc := hb c (List.mem_cons_self c t)
    have ht := ih fun x hx => hb x (List.mem_cons_of_mem c hx)
    have hp0 : (0 : ℤ) ≤ (p : ℤ) := by positivity
    have habs : |c + (p : ℤ) * valLow p t| ≤ |c| + (p : ℤ) * |valLow p t| := by
      calc |c + (p : ℤ) * valLow p t| ≤ |c| + |(p : ℤ) * valLow p t| := abs_add _ _
        _ = |c| + (p : ℤ) * |valLow p t| := by rw [abs_mul, abs_of_nonneg hp0]
    have hmul : (p : ℤ) * (2 * |valLow p t|) ≤ (p : ℤ) * ((p : ℤ) ^ t.length - 1) :=
      mul_le_mul_of_nonneg_left ht hp0
    have hpow : (p : ℤ) ^ (t.length + 1) = (p : ℤ) * (p : ℤ) ^ t.length := by ring
    rw [valLow, List.length_cons]
    nlinarith [habs, hc, hmul, hpow]

theorem decode_ge_two (p : ℕ) (hp : 5 ≤ p) (coeffs rest : List ℤ)
    (hc : coeffs = 1 :: rest) (hr : rest ≠ [])
    (hb : ∀ c ∈ coeffs, 2 * |c| ≤ (p : ℤ) - 1) :
    2 ≤ decode_coeffs coeffs p := by
  subst hc
  rw [decode_coeffs_eq_valLow, List.reverse_cons, valLow_append_one, List.length_reverse]
  have hbound : 2 * |valLow p rest.reverse| ≤ (p : ℤ) ^ rest.length - 1 := by
    have h := valLow_abs_bound p rest.reverse fun c hcm =>
      hb c (List.mem_cons_of_mem 1 (List.mem_reverse.mp hcm))
    rwa [List.length_reverse] at h
  have hd1 : 1 ≤ rest.length := by
    cases rest with
    | nil => exact absurd rfl hr
    | cons a t => simp
  have hp1 : (1 : ℤ) ≤ (p : ℤ) := by exact_mod_cast (by omega : 1 ≤ p)
  have hpd : (p : ℤ) ≤ (p : ℤ) ^ rest.length := by
    calc (p : ℤ) = (p : ℤ) ^ 1 := (pow_one _).symm
      _ ≤ (p : ℤ) ^ rest.length := pow_le_pow_right₀ hp1 hd1
  have hp5 : (5 : ℤ) ≤ (p : ℤ) := by exact_mod_cast hp
  have hneg := neg_abs_le (valLow p rest.reverse)
  linarith

theorem foldl_pfs_bound (p n : ℕ) (v : Bool) (hp : 5 ≤ p) :
    ∀ (fl : List (List ℤ × ℕ)) (st : List ℤ × List ProbeEvent),
      (∀ cm ∈ fl, (∃ rest, cm.1 = 1 :: rest ∧ rest ≠ []) ∧
        ∀ c ∈ cm.1, 2 * |c| ≤ (p : ℤ) - 1) →
      (∀ x ∈ st.1, 2 ≤ x ∧ (n : ℤ) % x = 0) →
      ∀ x ∈ (fl.foldl (probe_factor_step p n v) st).1, 2 ≤ x ∧ (n : ℤ) % x = 0 := by
  intro fl
  induction fl with
  | nil => intro st _ hst; exact hst
  | cons cm t ih =>
    intro st hfl hst
    refine ih _ (fun c hc => hfl c (List.mem_cons_of_mem cm hc)) ?_
    intro x hx
    simp only [probe_factor_step] at hx
    split_ifs at hx with hguard hmem
    · exact hst x hx
    · rcases List.mem_append.mp hx with h | h
      · exact hst x h
      · rw [List.mem_singleton] at h
        subst h
        obtain ⟨⟨rest, hcm, hr⟩, hb⟩ := hfl cm (List.mem_cons_self cm t)
        exact ⟨decode_ge_two p hp cm.1 rest hcm hr hb, hguard.2⟩
    · exact hst x hx

theorem foldl_probe_step_bound (O : ProbeOracles) (hO : ProbeWf O) (p q n : ℕ)
    (v : Bool) (hp : 5 ≤ p) :
    ∀ (ms : List ℕ) (st : List ℤ × List ProbeEvent),
      (∀ x ∈ st.1, 2 ≤ x ∧ (n : ℤ) % x = 0) →
      ∀ x ∈ (ms.foldl (probe_step O p q n v) st).1, 2 ≤ x ∧ (n : ℤ) % x = 0 := by
  intro ms
  induction ms with
  | nil => exact fun st h => h
  | cons m t ih =>
    intro st hst
    refine ih _ ?_
    intro x hx
    simp only [probe_step] at hx
    cases hfl : O.polyFactor p m with
    | none => rw [hfl] at hx; exact hst x hx
    | some fl =>
      rw [hfl] at hx
      exact foldl_pfs_bound p n v hp fl
        (st.1, st.2 ++ vlog v [ProbeEvent.overGF q m])
        (hO p m fl hfl) (fun y hy => hst y hy) x hx

theorem lapl_factors_bound (O : ProbeOracles) (hO : ProbeWf O) (p k n : ℕ) (v : Bool)
    (hp : 5 ≤ p) :
    ∀ x ∈ (laplacian_eigenfunction_approach O (p, k, n, v)).1,
      2 ≤ x ∧ (n : ℤ) % x = 0 := by
  intro x hx
  simp only [laplacian_eigenfunction_approach] at hx
  split_ifs at hx
  · simp at hx
  · exact foldl_probe_step_bound O hO p (p ^ k) n v hp _ ([], []) (by simp) x hx
  · simp at hx
  · simp at hx

theorem probe_factor_step_extends (p n : ℕ) (v : Bool) (st : List ℤ × List ProbeEvent)
    (cm : List ℤ × ℕ) : ∃ t, (probe_factor_step p n v st cm).1 = st.1 ++ t := by
  simp only [probe_factor_step]
  split_ifs
  · exact ⟨[], (List.append_nil _).symm⟩
  · exact ⟨[decode_coeffs cm.1 p], rfl⟩
  · exact ⟨[], (List.append_nil _).symm⟩

theorem foldl_pfs_extends (p n : ℕ) (v : Bool) :
    ∀ (fl : List (List ℤ × ℕ)) (st : List ℤ × List ProbeEvent),
      ∃ t, (fl.foldl (probe_factor_step p n v) st).1 = st.1 ++ t := by
  intro fl
  induction fl with
  | nil => exact fun st => ⟨[], (List.append_nil _).symm⟩
  | cons cm rest ih =>
    intro st
    obtain ⟨t1, ht1⟩ := probe_factor_step_extends p n v st cm
    obtain ⟨t2, ht2⟩ := ih (probe_factor_step p n v st cm)
    exact ⟨t1 ++ t2, by rw [List.foldl_cons, ht2, ht1, List.append_assoc]⟩

/-- Each iteration of the probe's inner loops only appends to the factor
set: the set grows monotonically while the probe runs. -/
theorem probe_step_extends (O : ProbeOracles) (p q n : ℕ) (v : Bool)
    (st : List ℤ × List ProbeEvent) (m : ℕ) :
    ∃ t, (probe_step O p q n v st m).1 = st.1 ++ t := by
  simp only [probe_step]
  cases O.polyFactor p m with
  | none => exact ⟨[], (List.append_nil _).symm⟩
  | some fl => exact foldl_pfs_extends p n v fl _

theorem set_update_extends : ∀ (r acc : List ℤ), ∃ t, set_update acc r = acc ++ t := by
  intro r
  induction r with
  | nil => exact fun acc => ⟨[], (List.append_nil _).symm⟩
  | cons x r ih =>
    intro acc
    simp only [set_update, List.foldl_cons]
    split_ifs with hmem
    · obtain ⟨t2, ht2⟩ := ih acc
      exact ⟨t2, by simpa [set_update] using ht2⟩
    · obtain ⟨t2, ht2⟩ := ih (acc ++ [x])
      refine ⟨[x] ++ t2, ?_⟩
      simp only [set_update] at ht2
      rw [ht2, List.append_assoc]

theorem mem_set_update (x : ℤ) : ∀ (r acc : List ℤ),
    x ∈ set_update acc r → x ∈ acc ∨ x ∈ r := by
  intro r
  induction r with
  | nil => exact fun acc h => Or.inl h
  | cons y r ih =>
    intro acc h
    simp only [set_update, List.foldl_cons] at h
    rcases ih (if y ∈ acc then acc else acc ++ [y]) h with hin | hin
    · split_ifs at hin with hmem
      · exact Or.inl hin
      · rcases List.mem_append.mp hin with h' | h'
        · exact Or.inl h'
        · exact Or.inr (by simpa using Or.inl (List.mem_singleton.mp h'))
    · exact Or.inr (List.mem_cons_of_mem y hin)

theorem foldl_set_update_extends : ∀ (rs : List (List ℤ)) (acc : List ℤ),
    ∃ t, rs.foldl set_update acc = acc ++ t := by
  intro rs
  induction rs with
  | nil => exact fun acc => ⟨[], (List.append_nil _).symm⟩
  | cons r rs ih =>
    intro acc
    obtain ⟨t1, ht1⟩ := set_update_extends r acc
    obtain ⟨t2, ht2⟩ := ih (set_update acc r)
    exact ⟨t1 ++ t2, by rw [List.foldl_cons, ht2, ht1, List.append_assoc]⟩

theorem foldl_set_update_mem (x : ℤ) : ∀ (rs : List (List ℤ)) (acc : List ℤ),
    x ∈ rs.foldl set_update acc → x ∈ acc ∨ ∃ r ∈ rs, x ∈ r := by
  intro rs
  induction rs with
  | nil => exact fun acc h => Or.inl h
  | cons r rs ih =>
    intro acc h
    rcases ih (set_update acc r) h with hin | ⟨r', hr', hx⟩
    · rcases mem_set_update x r acc hin with h' | h'
      · exact Or.inl h'
      · exact Or.inr ⟨r, List.mem_cons_self r rs, h'⟩
    · exact Or.inr ⟨r', List.mem_cons_of_mem r hr', hx⟩

theorem initial_factors_bound (n : ℕ) : ∀ x ∈ initial_factors n, 2 ≤ x ∧ x ∣ (n : ℤ) := by
  intro x hx
  unfold initial_factors at hx
  split_ifs at hx with hpr
  · rw [List.mem_singleton] at hx
    subst hx
    exact ⟨by exact_mod_cast ((is_prime_iff n).mp hpr).two_le, dvd_rfl⟩
  · simp only [List.mem_map] at hx
    obtain ⟨p, hp, rfl⟩ := hx
    rw [List.mem_dedup] at hp
    exact ⟨by exact_mod_cast (Nat.prime_of_mem_primeFactorsList hp).two_le,
      Int.natCast_dvd_natCast.mpr (Nat.dvd_of_mem_primeFactorsList hp)⟩

theorem prime_factor_filter_ge_five (n : ℕ) (p : ℤ) (hp : p ∈ prime_factor_filter n) :
    5 ≤ p.toNat := by
  have hpred := List.of_mem_filter hp
  simp only [Bool.and_eq_true, Bool.or_eq_true, beq_iff_eq, is_primeZ,
    decide_eq_true_eq] at hpred
  obtain ⟨⟨hpos, hprime⟩, hmod⟩ := hpred
  have h2 : 2 ≤ p.toNat := ((is_prime_iff _).mp hprime).two_le
  have hcast : ((p.toNat : ℤ)) = p := Int.toNat_of_nonneg (by omega)
  have hmodn : p.toNat % 6 = 1 ∨ p.toNat % 6 = 5 := by
    rcases hmod with h | h
    · left
      have : ((p.toNat % 6 : ℕ) : ℤ) = 1 := by
        rw [Int.natCast_mod, hcast]
        exact_mod_cast h
      exact_mod_cast this
    · right
      have : ((p.toNat % 6 : ℕ) : ℤ) = 5 := by
        rw [Int.natCast_mod, hcast]
        exact_mod_cast h
      exact_mod_cast this
  omega

/-- C6: during a pipeline run on target `n` the factor set only grows —
`set_update` (the merge of worker results) and `probe_step` (the probe's
inner loop) only append, and every initial factor survives into the final
result — and, provided the polynomial-factorizer oracle is well-formed
(as sympy's is) every element of the resulting factor set is at least 2
and divides `n`. -/
theorem C6_factor_set_invariants (O : ProbeOracles) (n : ℕ) (mpl : List ℕ)
    (_hn : 1 ≤ n) (hO : ProbeWf O) :
    (∀ (acc r : List ℤ), ∃ t, set_update acc r = acc ++ t)
      ∧ (∀ (st : List ℤ × List ProbeEvent) (p q m : ℕ) (v : Bool),
          ∃ t, (probe_step O p q n v st m).1 = st.1 ++ t)
      ∧ (∀ x ∈ initial_factors n, x ∈ find_factors_using_finite_fields O n mpl)
      ∧ (∀ x ∈ find_factors_using_finite_fields O n mpl, 2 ≤ x ∧ x ∣ (n : ℤ)) := by
  refine ⟨fun acc r => set_update_extends r acc,
    fun st p q m v => probe_step_extends O p q n v st m, ?_, ?_⟩
  · intro x hx
    unfold find_factors_using_finite_fields
    rw [(List.perm_insertionSort _ _).mem_iff]
    obtain ⟨t, ht⟩ := foldl_set_update_extends
      ((probe_args n mpl).map fun a => (laplacian_eigenfunction_approach O a).1)
      (initial_factors n)
    rw [ht]
    exact List.mem_append_left _ hx
  · intro x hx
    unfold find_factors_using_finite_fields at hx
    rw [(List.perm_insertionSort _ _).mem_iff] at hx
    rcases foldl_set_update_mem x _ _ hx with hin | ⟨r, hr, hxr⟩
    · exact initial_factors_bound n x hin
    · obtain ⟨a, ha, rfl⟩ := List.mem_map.mp hr
      obtain ⟨p, hp, ha2⟩ := List.mem_flatMap.mp ha
      obtain ⟨k, hk, rfl⟩ := List.mem_map.mp ha2
      have h5 := prime_factor_filter_ge_five n p hp
      have hb := lapl_factors_bound O hO p.toNat k n false h5 x hxr
      exact ⟨hb.1, Int.dvd_of_emod_eq_zero hb.2⟩

/-- Witness for C6 at the concrete target `10` with the trivially
well-formed probe oracle. -/
theorem C6_factor_set_invariants_witness :
    (1 ≤ 10) ∧ ProbeWf probeTrivial
      ∧ (∀ x ∈ initial_factors 10, x ∈ find_factors_using_finite_fields probeTrivial 10 [2, 3])
      ∧ (∀ x ∈ find_factors_using_finite_fields probeTrivial 10 [2, 3],
          2 ≤ x ∧ x ∣ (10 : ℤ)) := by
  have hwf : ProbeWf probeTrivial := by
    intro p m fl hfl cm hcm
    simp only [probeTrivial] at hfl
    injection hfl with h
    subst h
    exact absurd hcm (List.not_mem_nil cm)
  exact ⟨by norm_num, hwf,
    (C6_factor_set_invariants probeTrivial 10 [2, 3] (by norm_num) hwf).2.2.1,
    (C6_factor_set_invariants probeTrivial 10 [2, 3] (by norm_num) hwf).2.2.2⟩
